import Mathlib

/-!
Verification development for the document-region segmentation core of the
ExamExecutor repository (`ocr_module/pdf_analyzer.py`).

The Python functions are shallowly embedded as executable Lean definitions:

* `isDuplicateOf`, `dedupLoop`, `removeDuplicateBoxes` embed
  `PDFAnalyzer._remove_duplicate_boxes` (box deduplication by
  intersection-over-smaller-box ratio, greedy largest-area-first);
* `keepContour`, `filterContours`, `configBoxes`,
  `detectQuestionsTraditional` embed the per-configuration filter loop of
  `PDFAnalyzer._detect_questions_traditional` (each of the four
  threshold/polarity configurations is represented by its outcome: either
  the contour list it produced, or an exception caught by the per-config
  `try/except`);
* `clusterStep`, `clustersOf`, `clusterBox`, `clusterTextBoxes` embed
  `PDFAnalyzer._cluster_text_boxes` (the assisted text-fragment clustering
  path);
* `cropDims`, `extractQuestions`, `pageQuestions` embed the region
  extraction in `PDFAnalyzer.extract_questions` and the question-record
  assembly in `PDFAnalyzer.analyze_pdf`.

Machine arithmetic: box coordinates are Python ints, embedded as `ℤ`.
The running line-height estimate of the clusterer is a Python float that
only ever takes dyadic-rational values well inside double precision for
realistic inputs, and is embedded as `ℚ`; likewise the float comparisons
`w < width * 0.9`, `h < height * 0.8`, `0.3 < w/h < 10.0` and
`intersection / min_area > 0.5` are embedded by their exact cross-multiplied
integer forms, which agree with the double-precision evaluation on all
integer box data of page-image magnitude.
-/

/-- An axis-aligned rectangle `(x, y, w, h)` in pixel coordinates, the
`(x, y, w, h)` tuples used throughout `pdf_analyzer.py`. -/
structure Box where
  x : ℤ
  y : ℤ
  w : ℤ
  h : ℤ
  deriving DecidableEq, Repr

/-- Bounding-box area `w * h`, the sort key `box[2] * box[3]` of
`_remove_duplicate_boxes`. -/
def Box.area (b : Box) : ℤ := b.w * b.h

/-- Width of the intersection of two boxes (may be negative when they are
horizontally disjoint): `min(x1+w1, x2+w2) - max(x1, x2)`. -/
def interW (a b : Box) : ℤ := min (a.x + a.w) (b.x + b.w) - max a.x b.x

/-- Height of the intersection of two boxes (may be negative when they are
vertically disjoint): `min(y1+h1, y2+h2) - max(y1, y2)`. -/
def interH (a b : Box) : ℤ := min (a.y + a.h) (b.y + b.h) - max a.y b.y

/-- Area of the geometric intersection of two boxes, zero when they do not
positively overlap. -/
def interArea (a b : Box) : ℤ := max 0 (interW a b) * max 0 (interH a b)

/-- The overlap bound stated in the spec (Sections 4.3 and 8):
`intersection_area / min(area_a, area_b) ≤ 0.5`, written multiplicatively. -/
def overlapOK (a b : Box) : Prop := 2 * interArea a b ≤ min a.area b.area

instance : DecidableRel overlapOK := fun a b =>
  inferInstanceAs (Decidable (2 * interArea a b ≤ min a.area b.area))

/-- The duplicate test of `_remove_duplicate_boxes` (lines 317-337): `box`
counts as a duplicate of `unique_box` when their intersection is non-empty
and `intersection / min_area > 0.5`; the division is embedded exactly as
`2 * intersection > min_area`. -/
def isDuplicateOf (b u : Box) : Bool :=
  let xi1 := max b.x u.x
  let yi1 := max b.y u.y
  let xi2 := min (b.x + b.w) (u.x + u.w)
  let yi2 := min (b.y + b.h) (u.y + u.h)
  if xi1 < xi2 ∧ yi1 < yi2 then
    decide (min b.area u.area < 2 * ((xi2 - xi1) * (yi2 - yi1)))
  else
    false

/-- `areaGE a b` - the comparison of the Python stable sort
`boxes.sort(key=lambda box: box[2] * box[3], reverse=True)`. -/
def areaGE (a b : Box) : Prop := b.area ≤ a.area

instance : DecidableRel areaGE := fun a b =>
  inferInstanceAs (Decidable (b.area ≤ a.area))

instance : IsTotal Box areaGE := ⟨fun a b => le_total b.area a.area⟩

instance : IsTrans Box areaGE := ⟨fun _ _ _ h1 h2 => le_trans h2 h1⟩

/-- `yLE a b` - the comparison of the Python stable sort
`sort(key=lambda box: box[1])` by the top edge. -/
def yLE (a b : Box) : Prop := a.y ≤ b.y

instance : DecidableRel yLE := fun a b =>
  inferInstanceAs (Decidable (a.y ≤ b.y))

instance : IsTotal Box yLE := ⟨fun a b => le_total a.y b.y⟩

instance : IsTrans Box yLE := ⟨fun _ _ _ h1 h2 => le_trans h1 h2⟩

/-- Stable sort by area descending, `boxes.sort(key=..., reverse=True)`. -/
def sortByAreaDesc (l : List Box) : List Box := List.insertionSort areaGE l

/-- Stable sort by top-edge `y` ascending, `sort(key=lambda box: box[1])`. -/
def sortByY (l : List Box) : List Box := List.insertionSort yLE l

/-- The reading order claimed by the spec (Section 3): `y` ascending with
ties broken by `x` ascending. -/
def readingOrder (a b : Box) : Prop := a.y < b.y ∨ (a.y = b.y ∧ a.x ≤ b.x)

instance : DecidableRel readingOrder := fun a b =>
  inferInstanceAs (Decidable (a.y < b.y ∨ (a.y = b.y ∧ a.x ≤ b.x)))

/-- The accept loop of `_remove_duplicate_boxes` (lines 315-341): `acc` is
`unique_boxes`; each candidate is discarded exactly when it is a duplicate
of some already accepted box. -/
def dedupLoop : List Box → List Box → List Box
  | acc, [] => acc
  | acc, b :: bs =>
    if acc.any (fun u => isDuplicateOf b u) then dedupLoop acc bs
    else dedupLoop (acc ++ [b]) bs

/-- `PDFAnalyzer._remove_duplicate_boxes`: lists of length at most one are
returned unchanged; otherwise the list is stably sorted by area descending
and the greedy accept loop is run. -/
def removeDuplicateBoxes (boxes : List Box) : List Box :=
  if boxes.length ≤ 1 then boxes
  else dedupLoop [] (sortByAreaDesc boxes)

/-- A contour as seen by the filter of `_detect_questions_traditional`:
its `cv2.contourArea` value and its `cv2.boundingRect` rectangle. The area
is a float multiple of 1/2 in OpenCV, embedded as `ℚ`. -/
structure Contour where
  area : ℚ
  rect : Box
  deriving DecidableEq, Repr

/-- The retention test of `_detect_questions_traditional` (lines 266-281):
`area > 3000`, `w > 50 and h > 30`, `w < width * 0.9 and h < height * 0.8`,
and `0.3 < w / h < 10.0`.  The float comparisons are embedded by their exact
cross-multiplied forms (valid since `h > 30 > 0` guards the division). -/
def keepContour (width height : ℤ) (c : Contour) : Bool :=
  if (3000 : ℚ) < c.area then
    decide (50 < c.rect.w ∧ 30 < c.rect.h ∧
      10 * c.rect.w < 9 * width ∧ 10 * c.rect.h < 8 * height ∧
      3 * c.rect.h < 10 * c.rect.w ∧ c.rect.w < 10 * c.rect.h)
  else
    false

/-- The per-configuration filter: the bounding rectangles of the retained
contours, in contour order. -/
def filterContours (width height : ℤ) (cs : List Contour) : List Box :=
  (cs.filter (keepContour width height)).map (fun c => c.rect)

/-- Contribution of one threshold/polarity configuration to `all_boxes`:
a configuration whose `try` block threw (represented by `Except.error`)
contributes the empty list; a successful one contributes its filtered
rectangles. -/
def configBoxes (width height : ℤ) : Except Unit (List Contour) → List Box
  | Except.error _ => []
  | Except.ok cs => filterContours width height cs

/-- `PDFAnalyzer._detect_questions_traditional` from the point where the
per-configuration contour lists exist: concatenate the per-configuration
contributions (`all_boxes.extend`), deduplicate, and sort by `y`. -/
def detectQuestionsTraditional (width height : ℤ)
    (configs : List (Except Unit (List Contour))) : List Box :=
  sortByY (removeDuplicateBoxes
    (List.flatten (configs.map (configBoxes width height))))

/-- Loop state of `_cluster_text_boxes` (lines 179-204): the finished
clusters, the current cluster split as its earlier members `curRest` plus
its last member `curLast` (the `current_cluster[-1]` the gap is measured
against), and the running `line_height` float. -/
structure ClState where
  done : List (List Box)
  curRest : List Box
  curLast : Box
  lh : ℚ
  deriving DecidableEq, Repr

/-- The current cluster, in member order. -/
def ClState.cur (s : ClState) : List Box := s.curRest ++ [s.curLast]

/-- One iteration of the clustering loop: compute the vertical gap to the
last member of the current cluster, update `line_height` to the average of
the old estimate and the new height, and open a new cluster exactly when
the gap exceeds `1.5` times the updated estimate. -/
def clusterStep (s : ClState) (b : Box) : ClState :=
  let gap : ℤ := b.y - (s.curLast.y + s.curLast.h)
  let lh2 : ℚ := (s.lh + (b.h : ℚ)) / 2
  if lh2 * 1.5 < (gap : ℚ) then
    ⟨s.done ++ [s.cur], [], b, lh2⟩
  else
    ⟨s.done, s.cur, b, lh2⟩

/-- The clusters produced by the loop of `_cluster_text_boxes` on an
already `y`-sorted list: the first rectangle seeds the first cluster and
initializes `line_height` with its height; the final cluster is appended
after the loop. -/
def clustersOf : List Box → List (List Box)
  | [] => []
  | b :: bs =>
    let s := bs.foldl clusterStep ⟨[], [], b, (b.h : ℚ)⟩
    s.done ++ [s.cur]

/-- Fold computing `min(f(box) for box in cluster)` starting from the head
member, as the generator expressions of lines 210-213 do. -/
def foldMin (f : Box → ℤ) (a : ℤ) (cs : List Box) : ℤ :=
  cs.foldl (fun m b => min m (f b)) a

/-- Fold computing `max(f(box) for box in cluster)` starting from the head
member. -/
def foldMax (f : Box → ℤ) (a : ℤ) (cs : List Box) : ℤ :=
  cs.foldl (fun m b => max m (f b)) a

/-- `min(box[0] for box in cluster)` for the cluster `c :: cs`. -/
def lowX (c : Box) (cs : List Box) : ℤ := foldMin Box.x c.x cs

/-- `min(box[1] for box in cluster)` for the cluster `c :: cs`. -/
def lowY (c : Box) (cs : List Box) : ℤ := foldMin Box.y c.y cs

/-- `max(box[0] + box[2] for box in cluster)` for the cluster `c :: cs`. -/
def highX (c : Box) (cs : List Box) : ℤ := foldMax (fun b => b.x + b.w) (c.x + c.w) cs

/-- `max(box[1] + box[3] for box in cluster)` for the cluster `c :: cs`. -/
def highY (c : Box) (cs : List Box) : ℤ := foldMax (fun b => b.y + b.h) (c.y + c.h) cs

/-- Emission of one cluster (lines 208-226): the union bounding box of the
members, expanded by a 20 px margin on every side, clamped to
`[0, image_width] x [0, image_height]`, and kept only when the result
satisfies `w > 100 and h > 50`. -/
def clusterBox (width height : ℤ) : List Box → Option Box
  | [] => none
  | c :: cs =>
    let xm := max 0 (lowX c cs - 20)
    let ym := max 0 (lowY c cs - 20)
    let xM := min width (highX c cs + 20)
    let yM := min height (highY c cs + 20)
    if 100 < xM - xm ∧ 50 < yM - ym then some ⟨xm, ym, xM - xm, yM - ym⟩
    else none

/-- `PDFAnalyzer._cluster_text_boxes`: sort the text boxes by `y`, cluster
them, and emit one region per cluster that survives the size test. -/
def clusterTextBoxes (textBoxes : List Box) (width height : ℤ) : List Box :=
  (clustersOf (sortByY textBoxes)).filterMap (clusterBox width height)

/-- Shape `(rows, cols)` of the numpy crop `image[y:y+h, x:x+w]` of an
`imgH x imgW` image, for the non-negative slice bounds used here: each
slice endpoint is clamped into `[0, axis_length]` and an empty range
yields zero extent (numpy slicing never raises for such bounds). -/
def cropDims (imgH imgW y x h w : ℕ) : ℕ × ℕ :=
  (min (y + h) imgH - min y imgH, min (x + w) imgW - min x imgW)

/-- `PDFAnalyzer.extract_questions`: if the page image is unreadable the
result is the empty list; otherwise one artifact per bounding box, in box
order, tagged `(page_number, i + 1)` as in the file name
`page_{page_number}_question_{i+1}.png`. -/
def extractQuestions (img : Option Unit) (pageNumber : ℕ)
    (questionBoxes : List Box) : List (ℕ × ℕ) :=
  match img with
  | none => []
  | some _ => (List.range questionBoxes.length).map (fun i => (pageNumber, i + 1))

/-- One entry of the per-page question list assembled in
`PDFAnalyzer.analyze_pdf` (lines 420-426). -/
structure QuestionInfo where
  questionNumber : ℕ
  artifact : ℕ × ℕ
  boundingBox : Option Box
  deriving DecidableEq, Repr

/-- The question records of `analyze_pdf` for one page: enumerate the
extracted artifacts and defensively pair each with
`question_boxes[j] if j < len(question_boxes) else None`. -/
def pageQuestions (img : Option Unit) (pageNumber : ℕ)
    (questionBoxes : List Box) : List QuestionInfo :=
  ((extractQuestions img pageNumber questionBoxes).enum).map
    (fun jp => ⟨jp.1 + 1, jp.2, questionBoxes[jp.1]?⟩)

/-! ### Helper lemmas -/

theorem foldMin_le_init (f : Box → ℤ) (cs : List Box) : ∀ a, foldMin f a cs ≤ a := by
  induction cs with
  | nil => intro a; simp [foldMin]
  | cons c cs ih =>
    intro a
    have h := ih (min a (f c))
    simp only [foldMin, List.foldl_cons] at h ⊢
    exact le_trans h (min_le_left _ _)

theorem foldMin_le_mem (f : Box → ℤ) (cs : List Box) :
    ∀ a, ∀ b ∈ cs, foldMin f a cs ≤ f b := by
  induction cs with
  | nil => intro a b hb; simp at hb
  | cons c cs ih =>
    intro a b hb
    simp only [foldMin, List.foldl_cons]
    rcases List.mem_cons.mp hb with rfl | hb
    · exact le_trans (foldMin_le_init f cs (min a (f b))) (min_le_right _ _)
    · exact ih (min a (f c)) b hb

theorem foldMin_eq_init_or_mem (f : Box → ℤ) (cs : List Box) :
    ∀ a, foldMin f a cs = a ∨ ∃ b ∈ cs, foldMin f a cs = f b := by
  induction cs with
  | nil => intro a; left; simp [foldMin]
  | cons c cs ih =>
    intro a
    simp only [foldMin, List.foldl_cons]
    rcases ih (min a (f c)) with h | ⟨b, hb, h⟩
    · rcases min_choice a (f c) with hm | hm
      · left; rw [foldMin] at h; rw [h, hm]
      · right; exact ⟨c, List.mem_cons_self c cs, by rw [foldMin] at h; rw [h, hm]⟩
    · right; exact ⟨b, List.mem_cons_of_mem c hb, h⟩

theorem foldMax_init_le (f : Box → ℤ) (cs : List Box) : ∀ a, a ≤ foldMax f a cs := by
  induction cs with
  | nil => intro a; simp [foldMax]
  | cons c cs ih =>
    intro a
    have h := ih (max a (f c))
    simp only [foldMax, List.foldl_cons] at h ⊢
    exact le_trans (le_max_left _ _) h

theorem foldMax_mem_le (f : Box → ℤ) (cs : List Box) :
    ∀ a, ∀ b ∈ cs, f b ≤ foldMax f a cs := by
  induction cs with
  | nil => intro a b hb; simp at hb
  | cons c cs ih =>
    intro a b hb
    simp only [foldMax, List.foldl_cons]
    rcases List.mem_cons.mp hb with rfl | hb
    · exact le_trans (le_max_right _ _) (foldMax_init_le f cs (max a (f b)))
    · exact ih (max a (f c)) b hb

theorem foldMax_eq_init_or_mem (f : Box → ℤ) (cs : List Box) :
    ∀ a, foldMax f a cs = a ∨ ∃ b ∈ cs, foldMax f a cs = f b := by
  induction cs with
  | nil => intro a; left; simp [foldMax]
  | cons c cs ih =>
    intro a
    simp only [foldMax, List.foldl_cons]
    rcases ih (max a (f c)) with h | ⟨b, hb, h⟩
    · rcases max_choice a (f c) with hm | hm
      · left; rw [foldMax] at h; rw [h, hm]
      · right; exact ⟨c, List.mem_cons_self c cs, by rw [foldMax] at h; rw [h, hm]⟩
    · right; exact ⟨b, List.mem_cons_of_mem c hb, h⟩

theorem interArea_comm (a b : Box) : interArea a b = interArea b a := by
  simp only [interArea, interW, interH, min_comm (a.x + a.w), max_comm a.x,
    min_comm (a.y + a.h), max_comm a.y]

theorem overlapOK_symm : ∀ {a b : Box}, overlapOK a b → overlapOK b a := by
  intro a b h
  simpa only [overlapOK, interArea_comm, min_comm] using h

theorem not_dup_overlapOK {b u : Box} (hbw : 0 ≤ b.w) (hbh : 0 ≤ b.h)
    (huw : 0 ≤ u.w) (huh : 0 ≤ u.h) (h : isDuplicateOf b u = false) :
    overlapOK b u := by
  unfold isDuplicateOf at h
  by_cases hc : max b.x u.x < min (b.x + b.w) (u.x + u.w) ∧
      max b.y u.y < min (b.y + b.h) (u.y + u.h)
  · rw [if_pos hc, decide_eq_false_iff_not, not_lt] at h
    have hiw : interW b u = min (b.x + b.w) (u.x + u.w) - max b.x u.x := rfl
    have hih : interH b u = min (b.y + b.h) (u.y + u.h) - max b.y u.y := rfl
    have h1 : (0 : ℤ) ≤ interW b u := by rw [hiw]; omega
    have h2 : (0 : ℤ) ≤ interH b u := by rw [hih]; omega
    unfold overlapOK interArea
    rw [max_eq_right h1, max_eq_right h2, hiw, hih]
    exact h
  · rw [if_neg hc] at h
    unfold overlapOK interArea
    have hz : max 0 (interW b u) * max 0 (interH b u) = 0 := by
      rcases not_and_or.mp hc with hx | hy
      · have : interW b u ≤ 0 := by unfold interW; omega
        rw [max_eq_left this, zero_mul]
      · have : interH b u ≤ 0 := by unfold interH; omega
        rw [max_eq_left this, mul_zero]
    rw [hz]
    have : (0 : ℤ) ≤ b.area := mul_nonneg hbw hbh
    have : (0 : ℤ) ≤ u.area := mul_nonneg huw huh
    simp only [mul_zero]
    exact le_min (by assumption) (by assumption)

theorem dedupLoop_pairwise (bs : List Box) : ∀ acc : List Box,
    List.Pairwise overlapOK acc →
    (∀ b ∈ acc, 0 ≤ b.w ∧ 0 ≤ b.h) → (∀ b ∈ bs, 0 ≤ b.w ∧ 0 ≤ b.h) →
    List.Pairwise overlapOK (dedupLoop acc bs) := by
  induction bs with
  | nil => intro acc hp _ _; exact hp
  | cons b bs ih =>
    intro acc hp hacc hbs
    unfold dedupLoop
    by_cases hd : acc.any (fun u => isDuplicateOf b u) = true
    · rw [if_pos hd]
      exact ih acc hp hacc (fun x hx => hbs x (List.mem_cons_of_mem b hx))
    · rw [if_neg hd]
      have hnb : ∀ u ∈ acc, isDuplicateOf b u = false := by
        intro u hu
        rcases Bool.eq_false_or_eq_true (isDuplicateOf b u) with h | h
        · exact absurd (List.any_eq_true.mpr ⟨u, hu, h⟩) hd
        · exact h
      have hb := hbs b (List.mem_cons_self b bs)
      have hp2 : List.Pairwise overlapOK (acc ++ [b]) := by
        rw [List.pairwise_append]
        refine ⟨hp, List.pairwise_singleton _ _, ?_⟩
        intro u hu x hx
        rcases List.mem_singleton.mp hx with rfl
        have hu2 := hacc u hu
        exact overlapOK_symm
          (not_dup_overlapOK hb.1 hb.2 hu2.1 hu2.2 (hnb u hu))
      refine ih (acc ++ [b]) hp2 ?_ (fun x hx => hbs x (List.mem_cons_of_mem b hx))
      intro x hx
      rcases List.mem_append.mp hx with hx | hx
      · exact hacc x hx
      · rcases List.mem_singleton.mp hx with rfl; exact hb

theorem sortByAreaDesc_perm (l : List Box) : List.Perm (sortByAreaDesc l) l :=
  List.perm_insertionSort areaGE l

theorem sortByY_perm (l : List Box) : List.Perm (sortByY l) l :=
  List.perm_insertionSort yLE l

theorem sortByY_sorted (l : List Box) : List.Sorted yLE (sortByY l) :=
  List.sorted_insertionSort yLE l

theorem sortByAreaDesc_sorted (l : List Box) : List.Sorted areaGE (sortByAreaDesc l) :=
  List.sorted_insertionSort areaGE l

theorem removeDuplicateBoxes_pairwise {l : List Box}
    (hl : ∀ b ∈ l, 0 ≤ b.w ∧ 0 ≤ b.h) :
    List.Pairwise overlapOK (removeDuplicateBoxes l) := by
  unfold removeDuplicateBoxes
  by_cases hlen : l.length ≤ 1
  · rw [if_pos hlen]
    match l with
    | [] => exact List.Pairwise.nil
    | [b] => exact List.pairwise_singleton _ _
    | a :: b :: l => simp at hlen
  · rw [if_neg hlen]
    refine dedupLoop_pairwise _ [] List.Pairwise.nil (by simp) ?_
    intro b hb
    exact hl b ((sortByAreaDesc_perm l).mem_iff.mp hb)

theorem pairwise_overlapOK_sortByY {l : List Box}
    (h : List.Pairwise overlapOK l) : List.Pairwise overlapOK (sortByY l) :=
  ((sortByY_perm l).pairwise_iff (fun hab => overlapOK_symm hab)).mpr h

theorem keepContour_dims {width height : ℤ} {c : Contour}
    (h : keepContour width height c = true) : 0 ≤ c.rect.w ∧ 0 ≤ c.rect.h := by
  unfold keepContour at h
  by_cases ha : (3000 : ℚ) < c.area
  · rw [if_pos ha, decide_eq_true_eq] at h
    exact ⟨by omega, by omega⟩
  · rw [if_neg ha] at h; exact absurd h (by simp)

theorem configBoxes_dims {width height : ℤ} {r : Except Unit (List Contour)}
    {b : Box} (hb : b ∈ configBoxes width height r) : 0 ≤ b.w ∧ 0 ≤ b.h := by
  match r with
  | Except.error _ => simp [configBoxes] at hb
  | Except.ok cs =>
    simp only [configBoxes, filterContours, List.mem_map, List.mem_filter] at hb
    obtain ⟨c, ⟨_, hc⟩, rfl⟩ := hb
    exact keepContour_dims hc

theorem clusterStep_concat (s : ClState) (b : Box) :
    (clusterStep s b).done.flatten ++ (clusterStep s b).cur =
      (s.done.flatten ++ s.cur) ++ [b] := by
  dsimp only [clusterStep]
  split
  · simp [ClState.cur]
  · simp [ClState.cur]

theorem foldl_clusterStep_concat (bs : List Box) : ∀ s : ClState,
    (bs.foldl clusterStep s).done.flatten ++ (bs.foldl clusterStep s).cur =
      (s.done.flatten ++ s.cur) ++ bs := by
  induction bs with
  | nil => intro s; simp
  | cons b bs ih =>
    intro s
    simp only [List.foldl_cons]
    rw [ih (clusterStep s b), clusterStep_concat]
    simp

theorem clustersOf_flatten (l : List Box) : (clustersOf l).flatten = l := by
  match l with
  | [] => rfl
  | b :: bs =>
    have h := foldl_clusterStep_concat bs ⟨[], [], b, (b.h : ℚ)⟩
    simp only [ClState.cur, List.nil_append, List.flatten_nil] at h
    simp only [clustersOf, List.flatten_append, List.flatten_cons, List.flatten_nil,
      List.append_nil, ClState.cur]
    exact h

theorem clusterBox_eq_some {width height : ℤ} {cl : List Box} {b : Box}
    (h : clusterBox width height cl = some b) :
    ∃ c cs, cl = c :: cs ∧ b.y = max 0 (lowY c cs - 20) := by
  match cl with
  | [] => simp [clusterBox] at h
  | c :: cs =>
    refine ⟨c, cs, rfl, ?_⟩
    simp only [clusterBox] at h
    split at h
    · exact (congrArg Box.y (Option.some.inj h)).symm
    · exact absurd h (by simp)

theorem lowY_blocks_le {c1 c2 : Box} {cs1 cs2 : List Box}
    (h : ∀ a ∈ c1 :: cs1, ∀ b ∈ c2 :: cs2, a.y ≤ b.y) :
    lowY c1 cs1 ≤ lowY c2 cs2 := by
  have hone : ∃ b ∈ c2 :: cs2, lowY c2 cs2 = b.y := by
    rcases foldMin_eq_init_or_mem Box.y cs2 c2.y with h2 | ⟨b, hb, h2⟩
    · exact ⟨c2, List.mem_cons_self _ _, h2⟩
    · exact ⟨b, List.mem_cons_of_mem _ hb, h2⟩
  obtain ⟨b, hb, h2⟩ := hone
  calc lowY c1 cs1 ≤ c1.y := foldMin_le_init Box.y cs1 c1.y
    _ ≤ b.y := h c1 (List.mem_cons_self _ _) b hb
    _ = lowY c2 cs2 := h2.symm

theorem clusterTextBoxes_sorted (tbs : List Box) (width height : ℤ) :
    List.Sorted yLE (clusterTextBoxes tbs width height) := by
  unfold clusterTextBoxes
  have hs : List.Pairwise yLE (clustersOf (sortByY tbs)).flatten := by
    rw [clustersOf_flatten]; exact sortByY_sorted tbs
  have hblocks := (List.pairwise_flatten.mp hs).2
  show List.Pairwise yLE _
  rw [List.pairwise_filterMap]
  refine hblocks.imp ?_
  intro cl1 cl2 hrel b1 hb1 b2 hb2
  rw [Option.mem_def] at hb1 hb2
  obtain ⟨c1, cs1, rfl, hy1⟩ := clusterBox_eq_some hb1
  obtain ⟨c2, cs2, rfl, hy2⟩ := clusterBox_eq_some hb2
  show b1.y ≤ b2.y
  rw [hy1, hy2]
  exact max_le_max (le_refl 0) (by have := lowY_blocks_le hrel; omega)

theorem eq_of_perm_sorted_areas (l1 : List Box) : ∀ l2 : List Box, List.Perm l1 l2 →
    List.Sorted areaGE l1 → List.Sorted areaGE l2 →
    (∀ a ∈ l1, ∀ b ∈ l1, a.area = b.area → a = b) → l1 = l2 := by
  induction l1 with
  | nil => intro l2 hp _ _ _; exact hp.nil_eq
  | cons a t1 ih =>
    intro l2 hp h1 h2 hinj
    match l2 with
    | [] => exact absurd hp.eq_nil (by simp)
    | b :: t2 =>
      have hbmem : b ∈ a :: t1 := hp.mem_iff.mpr (List.mem_cons_self b t2)
      have hamem : a ∈ b :: t2 := hp.mem_iff.mp (List.mem_cons_self a t1)
      have hab : a = b := by
        rcases List.mem_cons.mp hbmem with h | hbt
        · exact h.symm
        · rcases List.mem_cons.mp hamem with h | hat
          · exact h
          · have h1' : areaGE a b := (List.sorted_cons.mp h1).1 b hbt
            have h2' : areaGE b a := (List.sorted_cons.mp h2).1 a hat
            exact hinj a (List.mem_cons_self a t1) b hbmem (le_antisymm h2' h1')
      subst hab
      have ht : List.Perm t1 t2 := hp.cons_inv
      have := ih t2 ht (List.sorted_cons.mp h1).2 (List.sorted_cons.mp h2).2
        (fun x hx y hy hxy =>
          hinj x (List.mem_cons_of_mem a hx) y (List.mem_cons_of_mem a hy) hxy)
      rw [this]

theorem sortByAreaDesc_eq_of_perm {l1 l2 : List Box} (hp : List.Perm l1 l2)
    (hinj : ∀ a ∈ l1, ∀ b ∈ l1, a.area = b.area → a = b) :
    sortByAreaDesc l1 = sortByAreaDesc l2 := by
  apply eq_of_perm_sorted_areas
  · exact (sortByAreaDesc_perm l1).trans (hp.trans (sortByAreaDesc_perm l2).symm)
  · exact sortByAreaDesc_sorted l1
  · exact sortByAreaDesc_sorted l2
  · intro a ha b hb h
    exact hinj a ((sortByAreaDesc_perm l1).mem_iff.mp ha)
      b ((sortByAreaDesc_perm l1).mem_iff.mp hb) h

/-! ### Claim theorems -/

/-- C1 (amended): every pair of rectangles in the output of the unassisted
threshold/contour path satisfies
`intersection_area / min(area_a, area_b) <= 0.5`, because the deduplication
step runs on that path.  (The assisted clustering path does not run the
deduplicator; see the counterexample theorem.) -/
theorem traditional_page_no_overlap (width height : ℤ)
    (configs : List (Except Unit (List Contour))) :
    List.Pairwise overlapOK (detectQuestionsTraditional width height configs) := by
  unfold detectQuestionsTraditional
  apply pairwise_overlapOK_sortByY
  apply removeDuplicateBoxes_pairwise
  intro b hb
  rw [List.mem_flatten] at hb
  obtain ⟨l, hl, hbl⟩ := hb
  rw [List.mem_map] at hl
  obtain ⟨r, _, rfl⟩ := hl
  exact configBoxes_dims hbl

/-- C1 counterexample: a seven-fragment page on which the assisted
clustering path emits two rectangles whose overlap ratio is
`7700 / 12320 = 0.625 > 0.5` — the deduplication step is not applied to the
output of the Text-Box Clusterer. -/
theorem clusterTextBoxes_overlap_violation :
    clusterTextBoxes [⟨0,0,200,60⟩, ⟨0,61,200,1⟩, ⟨0,63,200,1⟩, ⟨0,65,200,1⟩,
        ⟨0,67,200,1⟩, ⟨0,73,200,1⟩, ⟨0,75,200,14⟩] 1000 1000 =
      [⟨0,0,220,88⟩, ⟨0,53,220,56⟩] ∧
    ¬ overlapOK ⟨0,0,220,88⟩ ⟨0,53,220,56⟩ := by
  constructor
  · norm_num [clusterTextBoxes, clustersOf, clusterStep, ClState.cur, sortByY,
      List.insertionSort, List.orderedInsert, yLE]
    decide
  · decide

/-- C2 counterexample: on a page with two equal-`y` disjoint rectangles the
final sort is by `y` only and is stable, so the tie keeps the
area-descending deduplication order — the larger box at `x = 100` precedes
the smaller box at `x = 0`, violating the claimed `x`-ascending
tie-break. -/
theorem traditional_tie_not_x_sorted :
    detectQuestionsTraditional 1000 1000
        [Except.ok [⟨5000, ⟨0, 10, 60, 60⟩⟩, ⟨5000, ⟨100, 10, 200, 60⟩⟩],
          Except.ok [], Except.ok [], Except.ok []] =
      [⟨100, 10, 200, 60⟩, ⟨0, 10, 60, 60⟩] ∧
    ¬ List.Pairwise readingOrder (detectQuestionsTraditional 1000 1000
        [Except.ok [⟨5000, ⟨0, 10, 60, 60⟩⟩, ⟨5000, ⟨100, 10, 200, 60⟩⟩],
          Except.ok [], Except.ok [], Except.ok []]) := by
  constructor
  · decide
  · decide

/-- C2 (amended): for every page, on either path, the final output
rectangle sequence is sorted by top-edge `y` nondecreasing; rectangles with
equal `y` keep the order of the upstream stage (area-descending
deduplication order on the unassisted path), not `x`-ascending order. -/
theorem page_output_sorted_by_y (width height : ℤ)
    (configs : List (Except Unit (List Contour))) (textBoxes : List Box) :
    List.Sorted yLE (detectQuestionsTraditional width height configs) ∧
    List.Sorted yLE (clusterTextBoxes textBoxes width height) :=
  ⟨sortByY_sorted _, clusterTextBoxes_sorted textBoxes width height⟩

/-- C3 counterexample: two overlapping rectangles of equal area.  The
area-descending sort is stable, so whichever rectangle comes first in the
input survives deduplication and suppresses the other: permuting the input
changes the output set. -/
theorem dedup_order_dependent :
    List.Perm [(⟨0,0,100,100⟩ : Box), ⟨10,10,100,100⟩] [⟨10,10,100,100⟩, ⟨0,0,100,100⟩] ∧
    removeDuplicateBoxes [⟨0,0,100,100⟩, ⟨10,10,100,100⟩] = [⟨0,0,100,100⟩] ∧
    removeDuplicateBoxes [⟨10,10,100,100⟩, ⟨0,0,100,100⟩] = [⟨10,10,100,100⟩] ∧
    sortByY (removeDuplicateBoxes [⟨0,0,100,100⟩, ⟨10,10,100,100⟩]) ≠
      sortByY (removeDuplicateBoxes [⟨10,10,100,100⟩, ⟨0,0,100,100⟩]) := by
  refine ⟨List.Perm.swap (⟨10,10,100,100⟩ : Box) ⟨0,0,100,100⟩ [], by decide, by decide, by decide⟩

/-- C3 (amended): the Box Deduplicator is invariant under permutation of
its input list whenever no two input rectangles share the same
bounding-box area (the stable area sort is then uniquely determined, so
the outputs are equal as lists, hence as sets and after the reading-order
sort). -/
theorem dedup_perm_invariant (l1 l2 : List Box) (hp : List.Perm l1 l2)
    (hnd : (l1.map Box.area).Nodup) :
    removeDuplicateBoxes l1 = removeDuplicateBoxes l2 := by
  have hinj := List.inj_on_of_nodup_map hnd
  match l1, hp, hinj with
  | [], hp, _ => rw [← hp.nil_eq]
  | [a], hp, _ => rw [← (List.singleton_perm.mp hp)]
  | a :: b :: t, hp, hinj =>
    have hlen1 : ¬ (a :: b :: t).length ≤ 1 := by simp
    have hlen2 : ¬ l2.length ≤ 1 := by rw [← hp.length_eq]; simp
    unfold removeDuplicateBoxes
    rw [if_neg hlen1, if_neg hlen2, sortByAreaDesc_eq_of_perm hp hinj]

/-- C3 witness: the permutation invariance applied to two distinct-area
rectangles. -/
theorem dedup_perm_invariant_witness :
    List.Perm [(⟨0,0,100,100⟩ : Box), ⟨0,0,50,50⟩] [⟨0,0,50,50⟩, ⟨0,0,100,100⟩] ∧
    (([(⟨0,0,100,100⟩ : Box), ⟨0,0,50,50⟩]).map Box.area).Nodup ∧
    removeDuplicateBoxes [⟨0,0,100,100⟩, ⟨0,0,50,50⟩] =
      removeDuplicateBoxes [⟨0,0,50,50⟩, ⟨0,0,100,100⟩] :=
  ⟨List.Perm.swap (⟨0,0,50,50⟩ : Box) ⟨0,0,100,100⟩ [], by decide,
    dedup_perm_invariant _ _ (List.Perm.swap (⟨0,0,50,50⟩ : Box) ⟨0,0,100,100⟩ []) (by decide)⟩

/-- C4 counterexample: a contour of mask area exactly 3000 that satisfies
every other retention condition is rejected, because the code tests
`area > min_area` strictly. -/
theorem keepContour_area_3000_rejected :
    keepContour 1000 1000 ⟨3000, ⟨100, 50, 100, 60⟩⟩ = false ∧
    (50 : ℤ) < 100 ∧ (30 : ℤ) < 60 ∧ 10 * (100 : ℤ) < 9 * 1000 ∧
    10 * (60 : ℤ) < 8 * 1000 ∧ 3 * (60 : ℤ) < 10 * 100 ∧ (100 : ℤ) < 10 * 60 := by
  decide

/-- C4 (amended): a contour's bounding rectangle is retained if and only if
its mask-contour area is strictly greater than 3000, `w > 50`, `h > 30`,
`w < 0.9 * page_width`, `h < 0.8 * page_height`, and the aspect ratio
`w / h` lies strictly between 0.3 and 10.0. -/
theorem keepContour_characterization (width height : ℤ) (c : Contour) :
    keepContour width height c = true ↔
      (3000 < c.area ∧ 50 < c.rect.w ∧ 30 < c.rect.h ∧
        (c.rect.w : ℚ) < 9/10 * (width : ℚ) ∧ (c.rect.h : ℚ) < 8/10 * (height : ℚ) ∧
        3/10 < (c.rect.w : ℚ) / (c.rect.h : ℚ) ∧ (c.rect.w : ℚ) / (c.rect.h : ℚ) < 10) := by
  unfold keepContour
  by_cases ha : (3000 : ℚ) < c.area
  · rw [if_pos ha, decide_eq_true_eq]
    constructor
    · rintro ⟨h1, h2, h3, h4, h5, h6⟩
      have hh : (0 : ℚ) < (c.rect.h : ℚ) := by exact_mod_cast (by omega : (0:ℤ) < c.rect.h)
      refine ⟨ha, h1, h2, ?_, ?_, ?_, ?_⟩
      · have hc : ((10 * c.rect.w : ℤ) : ℚ) < ((9 * width : ℤ) : ℚ) := by exact_mod_cast h3
        push_cast at hc; linarith
      · have hc : ((10 * c.rect.h : ℤ) : ℚ) < ((8 * height : ℤ) : ℚ) := by exact_mod_cast h4
        push_cast at hc; linarith
      · rw [lt_div_iff₀ hh]
        have hc : ((3 * c.rect.h : ℤ) : ℚ) < ((10 * c.rect.w : ℤ) : ℚ) := by exact_mod_cast h5
        push_cast at hc; linarith
      · rw [div_lt_iff₀ hh]
        have hc : ((c.rect.w : ℤ) : ℚ) < ((10 * c.rect.h : ℤ) : ℚ) := by exact_mod_cast h6
        push_cast at hc; linarith
    · rintro ⟨_, h1, h2, h4, h5, h6, h7⟩
      have hh : (0 : ℚ) < (c.rect.h : ℚ) := by exact_mod_cast (by omega : (0:ℤ) < c.rect.h)
      refine ⟨h1, h2, ?_, ?_, ?_, ?_⟩
      · have hc : ((10 * c.rect.w : ℤ) : ℚ) < ((9 * width : ℤ) : ℚ) := by push_cast; linarith
        exact_mod_cast hc
      · have hc : ((10 * c.rect.h : ℤ) : ℚ) < ((8 * height : ℤ) : ℚ) := by push_cast; linarith
        exact_mod_cast hc
      · rw [lt_div_iff₀ hh] at h6
        have hc : ((3 * c.rect.h : ℤ) : ℚ) < ((10 * c.rect.w : ℤ) : ℚ) := by push_cast; linarith
        exact_mod_cast hc
      · rw [div_lt_iff₀ hh] at h7
        have hc : ((c.rect.w : ℤ) : ℚ) < ((10 * c.rect.h : ℤ) : ℚ) := by push_cast; linarith
        exact_mod_cast hc
  · rw [if_neg ha]
    simp only [Bool.false_eq_true, false_iff]
    rintro ⟨h, _⟩
    exact ha h

/-- C5: in the Text-Box Clusterer the gap is measured against the last
rectangle of the current cluster, `line_height` is updated to
`(line_height + curr.height) / 2` before the comparison, and a new cluster
is opened if and only if the gap exceeds `1.5` times the updated estimate;
the fragments `y=80,h=30` and `y=130,h=30` stay in one cluster, while
moving the second to `y=300` produces two clusters. -/
theorem cluster_boundary_rule (s : ClState) (b : Box) :
    ((clusterStep s b).lh = (s.lh + (b.h : ℚ)) / 2) ∧
    ((clusterStep s b).done.length = s.done.length + 1 ↔
      ((s.lh + (b.h : ℚ)) / 2) * 1.5 < ((b.y - (s.curLast.y + s.curLast.h) : ℤ) : ℚ)) ∧
    clustersOf [⟨0,80,200,30⟩, ⟨0,130,200,30⟩] = [[⟨0,80,200,30⟩, ⟨0,130,200,30⟩]] ∧
    clustersOf [⟨0,80,200,30⟩, ⟨0,300,200,30⟩] = [[⟨0,80,200,30⟩], [⟨0,300,200,30⟩]] := by
  refine ⟨?_, ?_, ?_, ?_⟩
  · dsimp only [clusterStep]
    split <;> rfl
  · dsimp only [clusterStep]
    split
    · rename_i hc
      simp only [List.length_append, List.length_singleton, true_iff]
      exact hc
    · rename_i hc
      apply iff_of_false
      · intro h
        simp at h
      · exact hc
  · norm_num [clustersOf, clusterStep, ClState.cur]
  · norm_num [clustersOf, clusterStep, ClState.cur]

/-- C6: for every nonempty cluster the emitted region is the union
bounding box of the members (the fold values are simultaneously lower/upper
bounds and attained by members), expanded by 20 px per side and clamped to
`[0, image_width] x [0, image_height]`, and it is emitted if and only if
the clamped box satisfies `w > 100` and `h > 50`; otherwise the cluster
contributes nothing. -/
theorem clusterBox_spec (width height : ℤ) (c : Box) (cs : List Box) :
    clusterBox width height (c :: cs) =
      (if 100 < min width (highX c cs + 20) - max 0 (lowX c cs - 20) ∧
          50 < min height (highY c cs + 20) - max 0 (lowY c cs - 20) then
        some ⟨max 0 (lowX c cs - 20), max 0 (lowY c cs - 20),
          min width (highX c cs + 20) - max 0 (lowX c cs - 20),
          min height (highY c cs + 20) - max 0 (lowY c cs - 20)⟩
      else none) ∧
    (∀ a ∈ c :: cs, lowX c cs ≤ a.x ∧ lowY c cs ≤ a.y ∧
        a.x + a.w ≤ highX c cs ∧ a.y + a.h ≤ highY c cs) ∧
    (∃ a ∈ c :: cs, lowX c cs = a.x) ∧ (∃ a ∈ c :: cs, lowY c cs = a.y) ∧
    (∃ a ∈ c :: cs, highX c cs = a.x + a.w) ∧ (∃ a ∈ c :: cs, highY c cs = a.y + a.h) := by
  refine ⟨rfl, ?_, ?_, ?_, ?_, ?_⟩
  · intro a ha
    rcases List.mem_cons.mp ha with rfl | ha
    · exact ⟨foldMin_le_init _ cs _, foldMin_le_init _ cs _,
        foldMax_init_le _ cs _, foldMax_init_le _ cs _⟩
    · exact ⟨foldMin_le_mem _ cs _ a ha, foldMin_le_mem _ cs _ a ha,
        foldMax_mem_le _ cs _ a ha, foldMax_mem_le _ cs _ a ha⟩
  · rcases foldMin_eq_init_or_mem Box.x cs c.x with h | ⟨a, ha, h⟩
    · exact ⟨c, List.mem_cons_self _ _, h⟩
    · exact ⟨a, List.mem_cons_of_mem _ ha, h⟩
  · rcases foldMin_eq_init_or_mem Box.y cs c.y with h | ⟨a, ha, h⟩
    · exact ⟨c, List.mem_cons_self _ _, h⟩
    · exact ⟨a, List.mem_cons_of_mem _ ha, h⟩
  · rcases foldMax_eq_init_or_mem (fun b => b.x + b.w) cs (c.x + c.w) with h | ⟨a, ha, h⟩
    · exact ⟨c, List.mem_cons_self _ _, h⟩
    · exact ⟨a, List.mem_cons_of_mem _ ha, h⟩
  · rcases foldMax_eq_init_or_mem (fun b => b.y + b.h) cs (c.y + c.h) with h | ⟨a, ha, h⟩
    · exact ⟨c, List.mem_cons_self _ _, h⟩
    · exact ⟨a, List.mem_cons_of_mem _ ha, h⟩

/-- C6 witness: instantiation on a concrete one-member cluster. -/
theorem clusterBox_spec_witness :
    clusterBox 1000 1000 [(⟨40, 40, 200, 60⟩ : Box)] =
      (if 100 < min 1000 (highX ⟨40, 40, 200, 60⟩ [] + 20) -
            max 0 (lowX ⟨40, 40, 200, 60⟩ [] - 20) ∧
          50 < min 1000 (highY ⟨40, 40, 200, 60⟩ [] + 20) -
            max 0 (lowY ⟨40, 40, 200, 60⟩ [] - 20) then
        some ⟨max 0 (lowX ⟨40, 40, 200, 60⟩ [] - 20),
          max 0 (lowY ⟨40, 40, 200, 60⟩ [] - 20),
          min 1000 (highX ⟨40, 40, 200, 60⟩ [] + 20) -
            max 0 (lowX ⟨40, 40, 200, 60⟩ [] - 20),
          min 1000 (highY ⟨40, 40, 200, 60⟩ [] + 20) -
            max 0 (lowY ⟨40, 40, 200, 60⟩ [] - 20)⟩
      else none) ∧
    lowX ⟨40, 40, 200, 60⟩ [] ≤ (40 : ℤ) :=
  ⟨(clusterBox_spec 1000 1000 ⟨40, 40, 200, 60⟩ []).1,
    ((clusterBox_spec 1000 1000 ⟨40, 40, 200, 60⟩ []).2.1 ⟨40, 40, 200, 60⟩
      (List.mem_cons_self _ _)).1⟩

/-- C7: a configuration whose `try` block throws contributes the empty
rectangle set, and the page output is exactly what it would be had the
failing configuration not existed; no single configuration failure aborts
the page. -/
theorem config_failure_isolated (width height : ℤ)
    (pre post : List (Except Unit (List Contour))) (e : Unit) :
    configBoxes width height (Except.error e) = [] ∧
    detectQuestionsTraditional width height (pre ++ Except.error e :: post) =
      detectQuestionsTraditional width height (pre ++ post) := by
  refine ⟨rfl, ?_⟩
  unfold detectQuestionsTraditional
  congr 2
  simp [configBoxes]

/-- C8 counterexample: cropping the rectangle `(x=90, y=90, w=50, h=50)`
from a `100 x 100` image extends past the image edge, yet numpy slicing
silently clips it to a nonempty `10 x 10` sub-image and produces an
artifact instead of raising on out-of-range indexing. -/
theorem crop_out_of_bounds_clips :
    (90 + 50 : ℕ) > 100 ∧ cropDims 100 100 90 90 50 50 = (10, 10) ∧
    cropDims 100 100 90 90 50 50 ≠ (50, 50) ∧
    0 < (cropDims 100 100 90 90 50 50).1 ∧ 0 < (cropDims 100 100 90 90 50 50).2 := by
  decide

/-- C8 (amended): cropping a rectangle that lies fully inside the page
image bounds always succeeds and yields exactly the `h x w` region; a
rectangle extending past the image edge does not raise — numpy slice
semantics clip the crop to the image, yielding a smaller (possibly empty)
region. -/
theorem crop_clip_behavior (imgH imgW y x h w : ℕ) :
    (cropDims imgH imgW y x h w).1 ≤ h ∧ (cropDims imgH imgW y x h w).2 ≤ w ∧
    (cropDims imgH imgW y x h w).1 ≤ imgH ∧ (cropDims imgH imgW y x h w).2 ≤ imgW ∧
    (y + h ≤ imgH → x + w ≤ imgW → cropDims imgH imgW y x h w = (h, w)) := by
  unfold cropDims
  refine ⟨by omega, by omega, by omega, by omega, fun h1 h2 => ?_⟩
  simp only [Prod.mk.injEq]
  omega

/-- C8 witness: the in-bounds case applied to a concrete crop. -/
theorem crop_clip_behavior_witness :
    (10 + 20 : ℕ) ≤ 100 ∧ (5 + 30 : ℕ) ≤ 100 ∧
    cropDims 100 100 10 5 20 30 = (20, 30) :=
  ⟨by decide, by decide,
    (crop_clip_behavior 100 100 10 5 20 30).2.2.2.2 (by decide) (by decide)⟩

/-- C9: when the page image is readable the Region Extractor returns
exactly one artifact per input bounding box (same length, same order), so
every question record built in `analyze_pdf` has a non-null bounding box
and the defensive `None` branch is unreachable; when the image is
unreadable it returns the empty list. -/
theorem extract_questions_manifest (pageNumber : ℕ) (questionBoxes : List Box) :
    (extractQuestions (some ()) pageNumber questionBoxes).length =
      questionBoxes.length ∧
    ((pageQuestions (some ()) pageNumber questionBoxes).all
        (fun q => q.boundingBox.isSome)) = true ∧
    extractQuestions none pageNumber questionBoxes = [] ∧
    pageQuestions none pageNumber questionBoxes = [] := by
  refine ⟨by simp [extractQuestions], ?_, rfl, rfl⟩
  rw [List.all_eq_true]
  intro q hq
  simp only [pageQuestions, List.mem_map] at hq
  obtain ⟨⟨j, p⟩, hmem, rfl⟩ := hq
  have hget := List.mem_enum_iff_getElem?.mp hmem
  have hj : j < questionBoxes.length := by
    have hlt : j < (extractQuestions (some ()) pageNumber questionBoxes).length :=
      (List.getElem?_eq_some_iff.mp hget).choose
    simpa [extractQuestions] using hlt
  simp [List.getElem?_eq_getElem hj]

/-- C10: the Box Deduplicator returns inputs of length zero or one
unchanged — no sorting or filtering is applied, so a singleton rectangle
always survives regardless of its area. -/
theorem dedup_short_input_unchanged (b : Box) :
    removeDuplicateBoxes [] = [] ∧ removeDuplicateBoxes [b] = [b] :=
  ⟨rfl, rfl⟩
